import Mathlib

/-!
Verification of the STLWrappers library (src/STLWrappers/STLWrappers.h).

The library is a family of C++ function templates over five container shapes:
sequential containers (vector-like), `std::set`, `std::unordered_set`,
`std::map` and `std::unordered_map`.  We embed each shape as a list of
elements (respectively entries) carrying the container's class invariant:

* sequential container     : a plain `List`, arbitrary duplicates and order;
* `std::set`               : a strictly increasing list (the tree's in-order
                             element sequence), invariant `Pairwise (· < ·)`;
* `std::unordered_set`     : a duplicate-free list (the hash table's bucket
                             sequence in some unspecified order), `Nodup`;
* `std::map`               : a list of key-value entries strictly increasing
                             by key;
* `std::unordered_map`     : a list of key-value entries with pairwise
                             distinct keys, in some unspecified order.

Every wrapper function of the header is translated, overload by overload,
into a Lean function on these representations; loops of the source become
structural recursion.
-/

namespace STLWrappers

section Sequential

variable {α : Type} [DecidableEq α]

/-- Translation of the generic `find` overload: `std::find` walks the range
from the beginning and stops at the first element equal to `item`; we return
the element found (the dereferenced iterator), `none` standing for the end
iterator. -/
def findSeq : List α → α → Option α
  | [], _ => none
  | a :: t, x => if a = x then some a else findSeq t x

/-- Translation of `contains`: `find(container, item) != std::end(container)`. -/
def containsSeq (l : List α) (x : α) : Bool :=
  (findSeq l x).isSome

/-- Translation of the generic `count` overload: `std::count` over the range. -/
def countSeq : List α → α → Nat
  | [], _ => 0
  | a :: t, x => (if a = x then 1 else 0) + countSeq t x

/-- Translation of the generic `add` overload for a sequential container:
`inContainer.insert(std::end(inContainer), item)` inserts at the end. -/
def addSeq (l : List α) (x : α) : List α :=
  l ++ [x]

/-- Translation of the generic `remove` overload, the erase-remove idiom:
`std::remove` stably shifts every element different from `item` to the front
and `erase` truncates the leftover tail, so the surviving sequence keeps, in
order, exactly the elements different from `item`. -/
def removeSeq : List α → α → List α
  | [], _ => []
  | a :: t, x => if a = x then removeSeq t x else a :: removeSeq t x

end Sequential

section Loops

variable {β : Type}

/-- Translation of the loop of `containsAll_`: walk `items`, returning
`false` at the first item the container does not contain, `true` if the
walk finishes.  The membership test of the container under scrutiny is
passed in as the predicate `p`, exactly as the C++ template calls back
into the overload set of `contains`. -/
def containsAllLoop (p : β → Bool) : List β → Bool
  | [] => true
  | i :: rest => if p i then containsAllLoop p rest else false

/-- Translation of the loop of `containsAny_`: walk `items`, returning
`true` at the first item the container contains, `false` otherwise. -/
def containsAnyLoop (p : β → Bool) : List β → Bool
  | [] => false
  | i :: rest => if p i then true else containsAnyLoop p rest

/-- Translation of the loop of `addAll`: call `add` once per item of
`items`, in iteration order.  The single-item `add` of the destination
container is passed in as `addFn`. -/
def addAllLoop {σ : Type} (addFn : σ → β → σ) (c : σ) : List β → σ
  | [] => c
  | i :: rest => addAllLoop addFn (addFn c i) rest

end Loops

section SequentialBridges

variable {α : Type} [DecidableEq α]

theorem findSeq_isSome_iff_mem (l : List α) (x : α) :
    (findSeq l x).isSome = true ↔ x ∈ l := by
  induction l with
  | nil => simp [findSeq]
  | cons a t ih =>
    by_cases h : a = x
    · subst h; simp [findSeq]
    · have h' : ¬x = a := fun he => h he.symm
      simp [findSeq, h, ih, h']

theorem containsSeq_iff_mem (l : List α) (x : α) :
    containsSeq l x = true ↔ x ∈ l := by
  simpa [containsSeq] using findSeq_isSome_iff_mem l x

theorem countSeq_eq_count (l : List α) (x : α) :
    countSeq l x = l.count x := by
  induction l with
  | nil => simp [countSeq]
  | cons a t ih =>
    by_cases h : a = x
    · subst h; simp [countSeq, ih, List.count_cons, Nat.add_comm]
    · have h' : ¬x = a := fun he => h he.symm
      simp [countSeq, h, ih, List.count_cons, h']

theorem removeSeq_eq_filter (l : List α) (x : α) :
    removeSeq l x = l.filter (fun a => a ≠ x) := by
  induction l with
  | nil => rfl
  | cons a t ih =>
    by_cases h : a = x
    · simp [removeSeq, h, ih]
    · simp [removeSeq, h, ih]

theorem mem_removeSeq (l : List α) (x y : α) :
    y ∈ removeSeq l x ↔ y ∈ l ∧ y ≠ x := by
  simp [removeSeq_eq_filter]

end SequentialBridges

section SetShapes

variable {α : Type}

/-- Insertion into the in-order element sequence of a `std::set`:
`insert(hint, item)` walks the tree and inserts `item` at its sorted
position unless an equivalent element (neither smaller nor greater) is
already present, in which case the set is left unchanged. -/
def insertSorted [LinearOrder α] : List α → α → List α
  | [], x => [x]
  | a :: t, x =>
    if x < a then x :: a :: t
    else if a < x then a :: insertSorted t x
    else a :: t

/-- Insertion into the element sequence of a `std::unordered_set`:
`insert(hint, item)` inserts `item` unless it is already present; the
position inside the (unordered) sequence is unspecified, modelled here as
the back. -/
def insertUnique [DecidableEq α] (l : List α) (x : α) : List α :=
  if x ∈ l then l else l ++ [x]

/-- Erasure by value used by both set shapes: `erase(item)` removes every
element equivalent to `item` (at most one, by the container's uniqueness). -/
def eraseElem [DecidableEq α] (l : List α) (x : α) : List α :=
  l.filter (fun a => a ≠ x)

theorem mem_insertSorted [LinearOrder α] {l : List α} {x y : α} :
    y ∈ insertSorted l x ↔ y = x ∨ y ∈ l := by
  induction l with
  | nil => simp [insertSorted]
  | cons a t ih =>
    by_cases h1 : x < a
    · simp [insertSorted, h1]
    · by_cases h2 : a < x
      · simp only [insertSorted, if_neg h1, if_pos h2, List.mem_cons, ih]
        tauto
      · have hax : a = x := le_antisymm (not_lt.mp h1) (not_lt.mp h2)
        subst hax
        simp only [insertSorted, if_neg h1, if_neg h2, List.mem_cons]
        tauto

theorem self_mem_insertSorted [LinearOrder α] (l : List α) (x : α) :
    x ∈ insertSorted l x := by
  simp [mem_insertSorted]

theorem pairwise_insertSorted [LinearOrder α] {l : List α} (x : α)
    (h : l.Pairwise (· < ·)) : (insertSorted l x).Pairwise (· < ·) := by
  induction l with
  | nil => simp [insertSorted]
  | cons a t ih =>
    rw [List.pairwise_cons] at h
    obtain ⟨ha, ht⟩ := h
    by_cases h1 : x < a
    · rw [insertSorted]
      simp only [if_pos h1, List.pairwise_cons]
      refine ⟨?_, ha, ht⟩
      intro b hb
      rcases List.mem_cons.mp hb with hb | hb
      · exact hb ▸ h1
      · exact lt_trans h1 (ha b hb)
    · by_cases h2 : a < x
      · rw [insertSorted]
        simp only [if_neg h1, if_pos h2, List.pairwise_cons]
        refine ⟨?_, ih ht⟩
        intro b hb
        rcases mem_insertSorted.mp hb with hb | hb
        · exact hb ▸ h2
        · exact ha b hb
      · rw [insertSorted]
        simp only [if_neg h1, if_neg h2, List.pairwise_cons]
        exact ⟨ha, ht⟩

theorem nodup_insertUnique [DecidableEq α] {l : List α} (x : α)
    (h : l.Nodup) : (insertUnique l x).Nodup := by
  unfold insertUnique
  by_cases hx : x ∈ l
  · simpa [hx]
  · rw [if_neg hx]
    refine List.Nodup.append h (List.nodup_singleton x) ?_
    intro a ha hb
    rw [List.mem_singleton] at hb
    exact hx (hb ▸ ha)

theorem mem_insertUnique [DecidableEq α] {l : List α} {x y : α} :
    y ∈ insertUnique l x ↔ y = x ∨ y ∈ l := by
  unfold insertUnique
  by_cases hx : x ∈ l
  · simp only [if_pos hx]
    constructor
    · exact Or.inr
    · rintro (rfl | hy)
      · exact hx
      · exact hy
  · simp [if_neg hx, or_comm]

theorem mem_eraseElem [DecidableEq α] {l : List α} {x y : α} :
    y ∈ eraseElem l x ↔ y ∈ l ∧ y ≠ x := by
  simp [eraseElem]

theorem eraseElem_of_not_mem [DecidableEq α] {l : List α} {x : α}
    (h : x ∉ l) : eraseElem l x = l := by
  rw [eraseElem, List.filter_eq_self]
  intro a ha
  simp only [ne_eq, decide_eq_true_eq]
  intro hax
  exact h (hax ▸ ha)

/-- Representation of `std::set`: the strictly increasing in-order element
sequence of the search tree. -/
structure OSet (α : Type) [LinearOrder α] where
  elems : List α
  inv : elems.Pairwise (· < ·)

/-- Representation of `std::unordered_set`: the duplicate-free element
sequence of the hash table, in unspecified order. -/
structure USet (α : Type) [DecidableEq α] where
  elems : List α
  inv : elems.Nodup

theorem oset_eq_of_elems [LinearOrder α] {s t : OSet α}
    (h : s.elems = t.elems) : s = t := by
  cases s; cases t; cases h; rfl

theorem uset_eq_of_elems [DecidableEq α] {s t : USet α}
    (h : s.elems = t.elems) : s = t := by
  cases s; cases t; cases h; rfl

/-- Translation of the `find` overload for `std::set`: tree search for the
unique element equivalent to `item`; extensionally, search of the element
sequence. -/
def findOSet [LinearOrder α] (s : OSet α) (x : α) : Option α :=
  findSeq s.elems x

/-- Translation of `contains` dispatched at a `std::set`. -/
def containsOSet [LinearOrder α] (s : OSet α) (x : α) : Bool :=
  (findOSet s x).isSome

/-- Translation of the `count` overload for `std::set`: the number of
elements equivalent to `item` held by the tree. -/
def countOSet [LinearOrder α] (s : OSet α) (x : α) : Nat :=
  countSeq s.elems x

/-- Translation of the `add` overload reaching a `std::set`
(`insert(end, item)`). -/
def addOSet [LinearOrder α] (s : OSet α) (x : α) : OSet α :=
  ⟨insertSorted s.elems x, pairwise_insertSorted x s.inv⟩

/-- Translation of the `remove` overload for `std::set`: `erase(item)`. -/
def removeOSet [LinearOrder α] (s : OSet α) (x : α) : OSet α :=
  ⟨eraseElem s.elems x, s.inv.sublist (List.filter_sublist s.elems)⟩

/-- Translation of the `find` overload for `std::unordered_set`: hash
lookup of the unique element equal to `item`; extensionally, search of the
element sequence. -/
def findUSet [DecidableEq α] (s : USet α) (x : α) : Option α :=
  findSeq s.elems x

/-- Translation of `contains` dispatched at a `std::unordered_set`. -/
def containsUSet [DecidableEq α] (s : USet α) (x : α) : Bool :=
  (findUSet s x).isSome

/-- Translation of the `count` overload for `std::unordered_set`. -/
def countUSet [DecidableEq α] (s : USet α) (x : α) : Nat :=
  countSeq s.elems x

/-- Translation of the `add` overload reaching a `std::unordered_set`. -/
def addUSet [DecidableEq α] (s : USet α) (x : α) : USet α :=
  ⟨insertUnique s.elems x, nodup_insertUnique x s.inv⟩

/-- Translation of the `remove` overload for `std::unordered_set`. -/
def removeUSet [DecidableEq α] (s : USet α) (x : α) : USet α :=
  ⟨eraseElem s.elems x, s.inv.sublist (List.filter_sublist s.elems)⟩

end SetShapes

section EntryLists

variable {κ ν : Type}

/-- Key search in an entry sequence: both map-shaped `find` overloads look
up the unique entry whose key equals `item`; `none` stands for the end
iterator, `some e` for an iterator at the key-value entry `e`. -/
def findEntry [DecidableEq κ] : List (κ × ν) → κ → Option (κ × ν)
  | [], _ => none
  | e :: t, k => if e.1 = k then some e else findEntry t k

/-- Key count in an entry sequence: both map-shaped `count` overloads
return the number of entries held under the key. -/
def countEntries [DecidableEq κ] : List (κ × ν) → κ → Nat
  | [], _ => 0
  | e :: t, k => (if e.1 = k then 1 else 0) + countEntries t k

/-- Key erasure in an entry sequence: both map-shaped `remove` overloads
call `erase(item)`, dropping every entry stored under the key (at most one,
by the container's key uniqueness). -/
def eraseEntry [DecidableEq κ] (l : List (κ × ν)) (k : κ) : List (κ × ν) :=
  l.filter (fun e => e.1 ≠ k)

/-- Entry insertion into the key-sorted entry sequence of a `std::map`:
`insert(hint, pair)` places the pair at its key position unless an entry
with an equivalent key already exists, in which case the map is unchanged
(the held value is NOT overwritten). -/
def insertEntry [LinearOrder κ] : List (κ × ν) → κ × ν → List (κ × ν)
  | [], p => [p]
  | e :: t, p =>
    if p.1 < e.1 then p :: e :: t
    else if e.1 < p.1 then e :: insertEntry t p
    else e :: t

/-- Assignment through `operator[]` on a `std::map` (`inMap[key] = value`):
the entry under the key, created at its sorted position if absent, has its
value overwritten. -/
def assignEntry [LinearOrder κ] : List (κ × ν) → κ → ν → List (κ × ν)
  | [], k, v => [(k, v)]
  | e :: t, k, v =>
    if k < e.1 then (k, v) :: e :: t
    else if e.1 < k then e :: assignEntry t k v
    else (k, v) :: t

/-- Entry insertion into a `std::unordered_map`: `insert(hint, pair)` is a
no-op when the key is present, otherwise the pair is added at an
unspecified position, modelled as the back. -/
def insertEntryU [DecidableEq κ] (l : List (κ × ν)) (p : κ × ν) :
    List (κ × ν) :=
  if (findEntry l p.1).isSome then l else l ++ [p]

/-- Assignment through `operator[]` on a `std::unordered_map`: the entry
under the key, created if absent, has its value overwritten in place. -/
def assignEntryU [DecidableEq κ] : List (κ × ν) → κ → ν → List (κ × ν)
  | [], k, v => [(k, v)]
  | e :: t, k, v => if e.1 = k then (k, v) :: t else e :: assignEntryU t k v

theorem findEntry_isSome_iff [DecidableEq κ] {l : List (κ × ν)} {k : κ} :
    (findEntry l k).isSome = true ↔ ∃ e ∈ l, e.1 = k := by
  induction l with
  | nil => simp [findEntry]
  | cons e t ih =>
    by_cases h : e.1 = k
    · simp [findEntry, h]
    · simp [findEntry, h, ih]

theorem findEntry_eq_some [DecidableEq κ] {l : List (κ × ν)} {k : κ}
    {e : κ × ν} (h : findEntry l k = some e) : e ∈ l ∧ e.1 = k := by
  induction l with
  | nil => simp [findEntry] at h
  | cons a t ih =>
    by_cases ha : a.1 = k
    · rw [findEntry, if_pos ha] at h
      cases h
      exact ⟨List.mem_cons.mpr (Or.inl rfl), ha⟩
    · rw [findEntry, if_neg ha] at h
      obtain ⟨he, hk⟩ := ih h
      exact ⟨List.mem_cons.mpr (Or.inr he), hk⟩

theorem findEntry_eq_none_iff [DecidableEq κ] {l : List (κ × ν)} {k : κ} :
    findEntry l k = none ↔ ∀ e ∈ l, e.1 ≠ k := by
  constructor
  · intro h e he hk
    have h2 := findEntry_isSome_iff.mpr ⟨e, he, hk⟩
    rw [h] at h2
    simp at h2
  · intro h
    cases hfe : findEntry l k with
    | none => rfl
    | some e =>
      obtain ⟨he, hk⟩ := findEntry_eq_some hfe
      exact absurd hk (h e he)

theorem countEntries_eq_countP [DecidableEq κ] (l : List (κ × ν)) (k : κ) :
    countEntries l k = l.countP (fun e => decide (e.1 = k)) := by
  induction l with
  | nil => rfl
  | cons e t ih =>
    by_cases h : e.1 = k
    · simp [countEntries, h, ih, List.countP_cons, Nat.add_comm]
    · simp [countEntries, h, ih, List.countP_cons]

theorem countEntries_eq_zero_iff [DecidableEq κ] {l : List (κ × ν)} {k : κ} :
    countEntries l k = 0 ↔ ∀ e ∈ l, e.1 ≠ k := by
  simp [countEntries_eq_countP, List.countP_eq_zero]

theorem countEntries_pos_iff [DecidableEq κ] {l : List (κ × ν)} {k : κ} :
    0 < countEntries l k ↔ ∃ e ∈ l, e.1 = k := by
  simp [countEntries_eq_countP, List.countP_pos_iff]

theorem countEntries_le_one [DecidableEq κ] {l : List (κ × ν)} {k : κ}
    (h : l.Pairwise (fun a b => a.1 ≠ b.1)) : countEntries l k ≤ 1 := by
  induction l with
  | nil => simp [countEntries]
  | cons e t ih =>
    rw [List.pairwise_cons] at h
    obtain ⟨he, ht⟩ := h
    by_cases hk : e.1 = k
    · have h0 : countEntries t k = 0 := by
        rw [countEntries_eq_zero_iff]
        intro a ha hak
        exact (he a ha) (hk.trans hak.symm)
      simp [countEntries, hk, h0]
    · simpa [countEntries, hk] using ih ht

theorem mem_eraseEntry [DecidableEq κ] {l : List (κ × ν)} {k : κ}
    {q : κ × ν} : q ∈ eraseEntry l k ↔ q ∈ l ∧ q.1 ≠ k := by
  simp [eraseEntry]

theorem eraseEntry_of_none [DecidableEq κ] {l : List (κ × ν)} {k : κ}
    (h : findEntry l k = none) : eraseEntry l k = l := by
  rw [findEntry_eq_none_iff] at h
  rw [eraseEntry, List.filter_eq_self]
  intro e he
  simpa using h e he

theorem mem_insertEntry [LinearOrder κ] {l : List (κ × ν)} {p q : κ × ν}
    (h : q ∈ insertEntry l p) : q = p ∨ q ∈ l := by
  induction l with
  | nil => simpa [insertEntry] using h
  | cons e t ih =>
    by_cases h1 : p.1 < e.1
    · rw [insertEntry, if_pos h1] at h
      simpa using h
    · by_cases h2 : e.1 < p.1
      · rw [insertEntry, if_neg h1, if_pos h2] at h
        rcases List.mem_cons.mp h with h | h
        · exact Or.inr (List.mem_cons.mpr (Or.inl h))
        · rcases ih h with h | h
          · exact Or.inl h
          · exact Or.inr (List.mem_cons.mpr (Or.inr h))
      · rw [insertEntry, if_neg h1, if_neg h2] at h
        exact Or.inr h

theorem mem_of_mem_insertEntry [LinearOrder κ] {l : List (κ × ν)}
    {p q : κ × ν} (h : q ∈ l) : q ∈ insertEntry l p := by
  induction l with
  | nil => simp at h
  | cons e t ih =>
    by_cases h1 : p.1 < e.1
    · rw [insertEntry, if_pos h1]
      exact List.mem_cons.mpr (Or.inr h)
    · by_cases h2 : e.1 < p.1
      · rw [insertEntry, if_neg h1, if_pos h2]
        rcases List.mem_cons.mp h with h | h
        · exact List.mem_cons.mpr (Or.inl h)
        · exact List.mem_cons.mpr (Or.inr (ih h))
      · rw [insertEntry, if_neg h1, if_neg h2]
        exact h

theorem self_mem_insertEntry [LinearOrder κ] {l : List (κ × ν)} {p : κ × ν}
    (h : ∀ e ∈ l, e.1 ≠ p.1) : p ∈ insertEntry l p := by
  induction l with
  | nil => simp [insertEntry]
  | cons e t ih =>
    by_cases h1 : p.1 < e.1
    · rw [insertEntry, if_pos h1]
      exact List.mem_cons.mpr (Or.inl rfl)
    · by_cases h2 : e.1 < p.1
      · rw [insertEntry, if_neg h1, if_pos h2]
        refine List.mem_cons.mpr (Or.inr (ih ?_))
        intro a ha
        exact h a (List.mem_cons.mpr (Or.inr ha))
      · exact absurd (le_antisymm (not_lt.mp h1) (not_lt.mp h2))
          (h e (List.mem_cons.mpr (Or.inl rfl)))

theorem insertEntry_of_mem_key [LinearOrder κ] {l : List (κ × ν)}
    {p q : κ × ν} (hl : l.Pairwise (fun a b => a.1 < b.1)) (hq : q ∈ l)
    (hk : q.1 = p.1) : insertEntry l p = l := by
  induction l with
  | nil => simp at hq
  | cons e t ih =>
    rw [List.pairwise_cons] at hl
    obtain ⟨he, ht⟩ := hl
    by_cases h1 : p.1 < e.1
    · rcases List.mem_cons.mp hq with rfl | hq
      · exact absurd (hk ▸ h1) (lt_irrefl _)
      · exact absurd (hk ▸ he q hq) (fun hlt => absurd (lt_trans hlt h1)
          (lt_irrefl _))
    · by_cases h2 : e.1 < p.1
      · rcases List.mem_cons.mp hq with rfl | hq
        · exact absurd (hk ▸ h2) (lt_irrefl _)
        · rw [insertEntry, if_neg h1, if_pos h2, ih ht hq]
      · rw [insertEntry, if_neg h1, if_neg h2]

theorem pairwise_insertEntry [LinearOrder κ] {l : List (κ × ν)}
    (p : κ × ν) (h : l.Pairwise (fun a b => a.1 < b.1)) :
    (insertEntry l p).Pairwise (fun a b => a.1 < b.1) := by
  induction l with
  | nil => simp [insertEntry]
  | cons e t ih =>
    rw [List.pairwise_cons] at h
    obtain ⟨he, ht⟩ := h
    by_cases h1 : p.1 < e.1
    · rw [insertEntry, if_pos h1]
      rw [List.pairwise_cons]
      refine ⟨?_, List.pairwise_cons.mpr ⟨he, ht⟩⟩
      intro b hb
      rcases List.mem_cons.mp hb with rfl | hb
      · exact h1
      · exact lt_trans h1 (he b hb)
    · by_cases h2 : e.1 < p.1
      · rw [insertEntry, if_neg h1, if_pos h2]
        rw [List.pairwise_cons]
        refine ⟨?_, ih ht⟩
        intro b hb
        rcases mem_insertEntry hb with rfl | hb
        · exact h2
        · exact he b hb
      · rw [insertEntry, if_neg h1, if_neg h2]
        exact List.pairwise_cons.mpr ⟨he, ht⟩

theorem mem_assignEntry [LinearOrder κ] {l : List (κ × ν)} {k : κ} {v : ν}
    {q : κ × ν} (h : q ∈ assignEntry l k v) : q = (k, v) ∨ q ∈ l := by
  induction l with
  | nil => simpa [assignEntry] using h
  | cons e t ih =>
    by_cases h1 : k < e.1
    · rw [assignEntry, if_pos h1] at h
      simpa using h
    · by_cases h2 : e.1 < k
      · rw [assignEntry, if_neg h1, if_pos h2] at h
        rcases List.mem_cons.mp h with h | h
        · exact Or.inr (List.mem_cons.mpr (Or.inl h))
        · rcases ih h with h | h
          · exact Or.inl h
          · exact Or.inr (List.mem_cons.mpr (Or.inr h))
      · rw [assignEntry, if_neg h1, if_neg h2] at h
        rcases List.mem_cons.mp h with h | h
        · exact Or.inl h
        · exact Or.inr (List.mem_cons.mpr (Or.inr h))

theorem pairwise_assignEntry [LinearOrder κ] {l : List (κ × ν)} (k : κ)
    (v : ν) (h : l.Pairwise (fun a b => a.1 < b.1)) :
    (assignEntry l k v).Pairwise (fun a b => a.1 < b.1) := by
  induction l with
  | nil => simp [assignEntry]
  | cons e t ih =>
    rw [List.pairwise_cons] at h
    obtain ⟨he, ht⟩ := h
    by_cases h1 : k < e.1
    · rw [assignEntry, if_pos h1, List.pairwise_cons]
      refine ⟨?_, List.pairwise_cons.mpr ⟨he, ht⟩⟩
      intro b hb
      rcases List.mem_cons.mp hb with rfl | hb
      · exact h1
      · exact lt_trans h1 (he b hb)
    · by_cases h2 : e.1 < k
      · rw [assignEntry, if_neg h1, if_pos h2, List.pairwise_cons]
        refine ⟨?_, ih ht⟩
        intro b hb
        rcases mem_assignEntry hb with rfl | hb
        · exact h2
        · exact he b hb
      · have hek : e.1 = k := le_antisymm (not_lt.mp h1) (not_lt.mp h2)
        rw [assignEntry, if_neg h1, if_neg h2, List.pairwise_cons]
        exact ⟨fun b hb => hek ▸ he b hb, ht⟩

theorem findEntry_assignEntry [LinearOrder κ] (l : List (κ × ν)) (k : κ)
    (v : ν) : findEntry (assignEntry l k v) k = some (k, v) := by
  induction l with
  | nil => simp [assignEntry, findEntry]
  | cons e t ih =>
    by_cases h1 : k < e.1
    · rw [assignEntry, if_pos h1, findEntry, if_pos rfl]
    · by_cases h2 : e.1 < k
      · rw [assignEntry, if_neg h1, if_pos h2, findEntry,
          if_neg (ne_of_lt h2), ih]
      · rw [assignEntry, if_neg h1, if_neg h2, findEntry, if_pos rfl]

theorem mem_assignEntryU [DecidableEq κ] {l : List (κ × ν)} {k : κ} {v : ν}
    {q : κ × ν} (h : q ∈ assignEntryU l k v) : q = (k, v) ∨ q ∈ l := by
  induction l with
  | nil => simpa [assignEntryU] using h
  | cons e t ih =>
    by_cases h1 : e.1 = k
    · rw [assignEntryU, if_pos h1] at h
      rcases List.mem_cons.mp h with h | h
      · exact Or.inl h
      · exact Or.inr (List.mem_cons.mpr (Or.inr h))
    · rw [assignEntryU, if_neg h1] at h
      rcases List.mem_cons.mp h with h | h
      · exact Or.inr (List.mem_cons.mpr (Or.inl h))
      · rcases ih h with h | h
        · exact Or.inl h
        · exact Or.inr (List.mem_cons.mpr (Or.inr h))

theorem pairwiseNe_assignEntryU [DecidableEq κ] {l : List (κ × ν)} (k : κ)
    (v : ν) (h : l.Pairwise (fun a b => a.1 ≠ b.1)) :
    (assignEntryU l k v).Pairwise (fun a b => a.1 ≠ b.1) := by
  induction l with
  | nil => simp [assignEntryU]
  | cons e t ih =>
    rw [List.pairwise_cons] at h
    obtain ⟨he, ht⟩ := h
    by_cases h1 : e.1 = k
    · rw [assignEntryU, if_pos h1, List.pairwise_cons]
      exact ⟨fun b hb => h1 ▸ he b hb, ht⟩
    · rw [assignEntryU, if_neg h1, List.pairwise_cons]
      refine ⟨?_, ih ht⟩
      intro b hb
      rcases mem_assignEntryU hb with rfl | hb
      · exact h1
      · exact he b hb

theorem findEntry_assignEntryU [DecidableEq κ] (l : List (κ × ν)) (k : κ)
    (v : ν) : findEntry (assignEntryU l k v) k = some (k, v) := by
  induction l with
  | nil => simp [assignEntryU, findEntry]
  | cons e t ih =>
    by_cases h1 : e.1 = k
    · rw [assignEntryU, if_pos h1, findEntry, if_pos rfl]
    · rw [assignEntryU, if_neg h1, findEntry, if_neg h1, ih]

theorem insertEntryU_of_isSome [DecidableEq κ] {l : List (κ × ν)}
    {p : κ × ν} (h : (findEntry l p.1).isSome = true) :
    insertEntryU l p = l := by
  rw [insertEntryU, if_pos h]

theorem mem_insertEntryU [DecidableEq κ] {l : List (κ × ν)} {p q : κ × ν}
    (h : q ∈ insertEntryU l p) : q = p ∨ q ∈ l := by
  rw [insertEntryU] at h
  by_cases hf : (findEntry l p.1).isSome = true
  · rw [if_pos hf] at h
    exact Or.inr h
  · rw [if_neg hf] at h
    rcases List.mem_append.mp h with h | h
    · exact Or.inr h
    · exact Or.inl (by simpa using h)

theorem mem_of_mem_insertEntryU [DecidableEq κ] {l : List (κ × ν)}
    {p q : κ × ν} (h : q ∈ l) : q ∈ insertEntryU l p := by
  rw [insertEntryU]
  by_cases hf : (findEntry l p.1).isSome = true
  · rwa [if_pos hf]
  · rw [if_neg hf]
    exact List.mem_append.mpr (Or.inl h)

theorem self_mem_insertEntryU [DecidableEq κ] {l : List (κ × ν)}
    {p : κ × ν} (h : ∀ e ∈ l, e.1 ≠ p.1) : p ∈ insertEntryU l p := by
  rw [insertEntryU]
  have hf : findEntry l p.1 = none := findEntry_eq_none_iff.mpr h
  rw [hf]
  simp

theorem pairwiseNe_insertEntryU [DecidableEq κ] {l : List (κ × ν)}
    (p : κ × ν) (h : l.Pairwise (fun a b => a.1 ≠ b.1)) :
    (insertEntryU l p).Pairwise (fun a b => a.1 ≠ b.1) := by
  rw [insertEntryU]
  by_cases hf : (findEntry l p.1).isSome = true
  · rwa [if_pos hf]
  · rw [if_neg hf]
    have habs : ∀ e ∈ l, e.1 ≠ p.1 := by
      rw [← findEntry_eq_none_iff, ← Option.not_isSome_iff_eq_none]
      simpa using hf
    refine List.pairwise_append.mpr ⟨h, List.pairwise_singleton _ _, ?_⟩
    intro a ha b hb
    rw [List.mem_singleton] at hb
    exact hb ▸ habs a ha

end EntryLists

section MapShapes

variable {κ ν : Type}

/-- Representation of `std::map`: the entry sequence of the search tree,
strictly increasing by key. -/
structure OMap (κ ν : Type) [LinearOrder κ] where
  entries : List (κ × ν)
  inv : entries.Pairwise (fun a b => a.1 < b.1)

/-- Representation of `std::unordered_map`: the entry sequence of the hash
table, keys pairwise distinct, order unspecified. -/
structure UMap (κ ν : Type) [DecidableEq κ] where
  entries : List (κ × ν)
  inv : entries.Pairwise (fun a b => a.1 ≠ b.1)

theorem omap_eq_of_entries [LinearOrder κ] {m m' : OMap κ ν}
    (h : m.entries = m'.entries) : m = m' := by
  cases m; cases m'; cases h; rfl

theorem umap_eq_of_entries [DecidableEq κ] {m m' : UMap κ ν}
    (h : m.entries = m'.entries) : m = m' := by
  cases m; cases m'; cases h; rfl

/-- Translation of the `find` overload for `std::map` (key lookup). -/
def findOMap [LinearOrder κ] (m : OMap κ ν) (k : κ) : Option (κ × ν) :=
  findEntry m.entries k

/-- Translation of `contains` dispatched at a `std::map` with a key. -/
def containsOMap [LinearOrder κ] (m : OMap κ ν) (k : κ) : Bool :=
  (findOMap m k).isSome

/-- Translation of the `count` overload for `std::map`. -/
def countOMap [LinearOrder κ] (m : OMap κ ν) (k : κ) : Nat :=
  countEntries m.entries k

/-- Translation of the `remove` overload for `std::map` (`erase(key)`). -/
def removeOMap [LinearOrder κ] (m : OMap κ ν) (k : κ) : OMap κ ν :=
  ⟨eraseEntry m.entries k, m.inv.sublist (List.filter_sublist m.entries)⟩

/-- Translation of the single-item `add` overload reaching a `std::map`
with a key-value pair: `inContainer.insert(std::end(inContainer), item)`,
which does not overwrite the value under an existing key. -/
def addOMapPair [LinearOrder κ] (m : OMap κ ν) (p : κ × ν) : OMap κ ν :=
  ⟨insertEntry m.entries p, pairwise_insertEntry p m.inv⟩

/-- Translation of the two-argument `add(inMap, key, value)` overload for
`std::map`: `inMap[key] = value`. -/
def setOMap [LinearOrder κ] (m : OMap κ ν) (k : κ) (v : ν) : OMap κ ν :=
  ⟨assignEntry m.entries k v, pairwise_assignEntry k v m.inv⟩

/-- Value lookup of a key in a `std::map` (dereferencing the iterator the
map-shaped `find` returns). -/
def lookupOMap [LinearOrder κ] (m : OMap κ ν) (k : κ) : Option ν :=
  (findOMap m k).map Prod.snd

/-- Translation of `contains` dispatched at a `std::map` with a key-value
PAIR as the item: overload resolution picks the generic `find`, a linear
`std::find` over the map's entries comparing whole pairs. -/
def containsOMapEntry [LinearOrder κ] [DecidableEq ν] (m : OMap κ ν)
    (p : κ × ν) : Bool :=
  (findSeq m.entries p).isSome

/-- Translation of the `find` overload for `std::unordered_map`. -/
def findUMap [DecidableEq κ] (m : UMap κ ν) (k : κ) : Option (κ × ν) :=
  findEntry m.entries k

/-- Translation of `contains` dispatched at a `std::unordered_map` with a
key. -/
def containsUMap [DecidableEq κ] (m : UMap κ ν) (k : κ) : Bool :=
  (findUMap m k).isSome

/-- Translation of the `count` overload for `std::unordered_map`. -/
def countUMap [DecidableEq κ] (m : UMap κ ν) (k : κ) : Nat :=
  countEntries m.entries k

/-- Translation of the `remove` overload for `std::unordered_map`. -/
def removeUMap [DecidableEq κ] (m : UMap κ ν) (k : κ) : UMap κ ν :=
  ⟨eraseEntry m.entries k, m.inv.sublist (List.filter_sublist m.entries)⟩

/-- Translation of the single-item `add` overload reaching a
`std::unordered_map` with a key-value pair (no overwrite). -/
def addUMapPair [DecidableEq κ] (m : UMap κ ν) (p : κ × ν) : UMap κ ν :=
  ⟨insertEntryU m.entries p, pairwiseNe_insertEntryU p m.inv⟩

/-- Translation of the two-argument `add(inMap, key, value)` overload for
`std::unordered_map`: `inMap[key] = value`. -/
def setUMap [DecidableEq κ] (m : UMap κ ν) (k : κ) (v : ν) : UMap κ ν :=
  ⟨assignEntryU m.entries k v, pairwiseNe_assignEntryU k v m.inv⟩

/-- Value lookup of a key in a `std::unordered_map`. -/
def lookupUMap [DecidableEq κ] (m : UMap κ ν) (k : κ) : Option ν :=
  (findUMap m k).map Prod.snd

/-- Translation of `contains` dispatched at a `std::unordered_map` with a
key-value PAIR as the item (generic linear `std::find` over entries). -/
def containsUMapEntry [DecidableEq κ] [DecidableEq ν] (m : UMap κ ν)
    (p : κ × ν) : Bool :=
  (findSeq m.entries p).isSome

end MapShapes

section BatchWrappers

variable {α κ ν : Type}

/-- `containsAll` (via `containsAll_`) on a sequential container; `items`
is the iteration sequence of the second argument (a container or an
initializer list). -/
def containsAllSeq [DecidableEq α] (l : List α) (items : List α) : Bool :=
  containsAllLoop (containsSeq l) items

/-- `containsAny` (via `containsAny_`) on a sequential container. -/
def containsAnySeq [DecidableEq α] (l : List α) (items : List α) : Bool :=
  containsAnyLoop (containsSeq l) items

/-- `addAll` into a sequential container. -/
def addAllSeq [DecidableEq α] (l : List α) (items : List α) : List α :=
  addAllLoop addSeq l items

/-- `containsAll` on a `std::set`. -/
def containsAllOSet [LinearOrder α] (s : OSet α) (items : List α) : Bool :=
  containsAllLoop (containsOSet s) items

/-- `containsAny` on a `std::set`. -/
def containsAnyOSet [LinearOrder α] (s : OSet α) (items : List α) : Bool :=
  containsAnyLoop (containsOSet s) items

/-- `addAll` into a `std::set`. -/
def addAllOSet [LinearOrder α] (s : OSet α) (items : List α) : OSet α :=
  addAllLoop addOSet s items

/-- `containsAll` on a `std::unordered_set`. -/
def containsAllUSet [DecidableEq α] (s : USet α) (items : List α) : Bool :=
  containsAllLoop (containsUSet s) items

/-- `containsAny` on a `std::unordered_set`. -/
def containsAnyUSet [DecidableEq α] (s : USet α) (items : List α) : Bool :=
  containsAnyLoop (containsUSet s) items

/-- `addAll` into a `std::unordered_set`. -/
def addAllUSet [DecidableEq α] (s : USet α) (items : List α) : USet α :=
  addAllLoop addUSet s items

/-- `containsAll` on a `std::map` whose batch holds keys. -/
def containsAllOMap [LinearOrder κ] (m : OMap κ ν) (items : List κ) :
    Bool :=
  containsAllLoop (containsOMap m) items

/-- `containsAny` on a `std::map` whose batch holds keys. -/
def containsAnyOMap [LinearOrder κ] (m : OMap κ ν) (items : List κ) :
    Bool :=
  containsAnyLoop (containsOMap m) items

/-- `containsAll` on a `std::map` whose batch holds key-value entries
(e.g. another map), so each membership test is the generic pair search. -/
def containsAllOMapEntries [LinearOrder κ] [DecidableEq ν] (m : OMap κ ν)
    (items : List (κ × ν)) : Bool :=
  containsAllLoop (containsOMapEntry m) items

/-- `addAll` into a `std::map` from a batch of key-value entries; each
entry goes through the single-item `add` (non-overwriting insert). -/
def addAllOMap [LinearOrder κ] (m : OMap κ ν) (items : List (κ × ν)) :
    OMap κ ν :=
  addAllLoop addOMapPair m items

/-- `containsAll` on a `std::unordered_map` whose batch holds keys. -/
def containsAllUMap [DecidableEq κ] (m : UMap κ ν) (items : List κ) :
    Bool :=
  containsAllLoop (containsUMap m) items

/-- `containsAny` on a `std::unordered_map` whose batch holds keys. -/
def containsAnyUMap [DecidableEq κ] (m : UMap κ ν) (items : List κ) :
    Bool :=
  containsAnyLoop (containsUMap m) items

/-- `containsAll` on a `std::unordered_map` whose batch holds key-value
entries. -/
def containsAllUMapEntries [DecidableEq κ] [DecidableEq ν] (m : UMap κ ν)
    (items : List (κ × ν)) : Bool :=
  containsAllLoop (containsUMapEntry m) items

/-- `addAll` into a `std::unordered_map` from a batch of key-value
entries. -/
def addAllUMap [DecidableEq κ] (m : UMap κ ν) (items : List (κ × ν)) :
    UMap κ ν :=
  addAllLoop addUMapPair m items

/-- Translation of `inFirstButNotInSecond_`: walk `firstContainer` (its
iteration sequence `first`) and insert every item that `secondContainer`
does not contain into a fresh `std::unordered_set`; the membership test of
the second container is passed in as `inSecond`, standing for the
`contains` overload resolved there. -/
def inFirstButNotInSecondLoop [DecidableEq α] (inSecond : α → Bool) :
    USet α → List α → USet α
  | acc, [] => acc
  | acc, i :: rest =>
    inFirstButNotInSecondLoop inSecond
      (if inSecond i then acc else addUSet acc i) rest

/-- Translation of `inFirstButNotInSecond` (both container overloads and
the initializer-list ones all forward here): the result starts from the
empty `std::unordered_set`. -/
def inFirstButNotInSecond [DecidableEq α] (first : List α)
    (inSecond : α → Bool) : USet α :=
  inFirstButNotInSecondLoop inSecond ⟨[], List.nodup_nil⟩ first

end BatchWrappers

section Bridges

variable {α κ ν : Type}

theorem containsOSet_iff_mem [LinearOrder α] (s : OSet α) (x : α) :
    containsOSet s x = true ↔ x ∈ s.elems :=
  findSeq_isSome_iff_mem s.elems x

theorem containsUSet_iff_mem [DecidableEq α] (s : USet α) (x : α) :
    containsUSet s x = true ↔ x ∈ s.elems :=
  findSeq_isSome_iff_mem s.elems x

theorem containsOMap_iff [LinearOrder κ] (m : OMap κ ν) (k : κ) :
    containsOMap m k = true ↔ ∃ e ∈ m.entries, e.1 = k :=
  findEntry_isSome_iff

theorem containsUMap_iff [DecidableEq κ] (m : UMap κ ν) (k : κ) :
    containsUMap m k = true ↔ ∃ e ∈ m.entries, e.1 = k :=
  findEntry_isSome_iff

theorem containsOMapEntry_iff_mem [LinearOrder κ] [DecidableEq ν]
    (m : OMap κ ν) (p : κ × ν) :
    containsOMapEntry m p = true ↔ p ∈ m.entries :=
  findSeq_isSome_iff_mem m.entries p

theorem containsUMapEntry_iff_mem [DecidableEq κ] [DecidableEq ν]
    (m : UMap κ ν) (p : κ × ν) :
    containsUMapEntry m p = true ↔ p ∈ m.entries :=
  findSeq_isSome_iff_mem m.entries p

theorem OSet.nodup [LinearOrder α] (s : OSet α) : s.elems.Nodup :=
  s.inv.imp fun h => ne_of_lt h

theorem containsAllLoop_iff {β : Type} (p : β → Bool) (items : List β) :
    containsAllLoop p items = true ↔ ∀ i ∈ items, p i = true := by
  induction items with
  | nil => simp [containsAllLoop]
  | cons i rest ih =>
    by_cases h : p i = true
    · simp [containsAllLoop, h, ih]
    · simp [containsAllLoop, h]

theorem containsAnyLoop_eq_false_iff {β : Type} (p : β → Bool)
    (items : List β) :
    containsAnyLoop p items = false ↔ ∀ i ∈ items, p i = false := by
  induction items with
  | nil => simp [containsAnyLoop]
  | cons i rest ih =>
    by_cases h : p i = true
    · simp [containsAnyLoop, h]
    · simp only [Bool.not_eq_true] at h
      simp [containsAnyLoop, h, ih]

theorem addAllLoop_eq_foldl {σ β : Type} (addFn : σ → β → σ) :
    ∀ (items : List β) (c : σ), addAllLoop addFn c items =
      items.foldl addFn c := by
  intro items
  induction items with
  | nil => intro c; rfl
  | cons i rest ih => intro c; simpa [addAllLoop] using ih (addFn c i)

theorem addAllLoop_mono {σ β : Type} (addFn : σ → β → σ) (P : σ → Prop)
    (mono : ∀ s b, P s → P (addFn s b)) :
    ∀ (items : List β) (s : σ), P s → P (addAllLoop addFn s items) := by
  intro items
  induction items with
  | nil => intro s hs; exact hs
  | cons i rest ih => intro s hs; exact ih (addFn s i) (mono s i hs)

theorem addAllLoop_adds {σ β : Type} (addFn : σ → β → σ) (Q : σ → β → Prop)
    (mono : ∀ s b x, Q s x → Q (addFn s b) x)
    (hadd : ∀ s b, Q (addFn s b) b) :
    ∀ (items : List β) (s : σ), ∀ i ∈ items,
      Q (addAllLoop addFn s items) i := by
  intro items
  induction items with
  | nil => intro s i hi; simp at hi
  | cons j rest ih =>
    intro s i hi
    rcases List.mem_cons.mp hi with rfl | hi
    · exact addAllLoop_mono addFn (fun s => Q s i)
        (fun s b h => mono s b i h) rest (addFn s i) (hadd s i)
    · exact ih (addFn s j) i hi

end Bridges

section BatchLemmas

variable {α κ ν : Type}

theorem addAllOMap_mem [LinearOrder κ] :
    ∀ (items : List (κ × ν)) (m : OMap κ ν),
      (∀ p ∈ items, findEntry m.entries p.1 = none ∨ p ∈ m.entries) →
      items.Pairwise (fun p q => p.1 ≠ q.1 ∨ p = q) →
      ∀ p ∈ items, p ∈ (addAllOMap m items).entries := by
  intro items
  induction items with
  | nil => intro m _ _ p hp; simp at hp
  | cons i rest ih =>
    intro m hcomp hpw p hp
    rw [List.pairwise_cons] at hpw
    obtain ⟨hi_rest, hpw_rest⟩ := hpw
    have hmem_i : i ∈ (addOMapPair m i).entries := by
      rcases hcomp i (List.mem_cons.mpr (Or.inl rfl)) with hnone | hmem
      · exact self_mem_insertEntry (findEntry_eq_none_iff.mp hnone)
      · exact mem_of_mem_insertEntry hmem
    have hcomp' : ∀ q ∈ rest,
        findEntry (addOMapPair m i).entries q.1 = none ∨
          q ∈ (addOMapPair m i).entries := by
      intro q hq
      rcases hcomp q (List.mem_cons.mpr (Or.inr hq)) with hnone | hmem
      · rcases hi_rest q hq with hne | rfl
        · left
          rw [findEntry_eq_none_iff]
          intro e he
          rcases mem_insertEntry he with rfl | he
          · exact hne
          · exact findEntry_eq_none_iff.mp hnone e he
        · exact Or.inr hmem_i
      · exact Or.inr (mem_of_mem_insertEntry hmem)
    rw [show addAllOMap m (i :: rest) =
      addAllLoop addOMapPair (addOMapPair m i) rest from rfl]
    rcases List.mem_cons.mp hp with rfl | hp
    · exact addAllLoop_mono addOMapPair (fun m' => p ∈ m'.entries)
        (fun m' b h => mem_of_mem_insertEntry h) rest (addOMapPair m p)
        hmem_i
    · exact ih (addOMapPair m i) hcomp' hpw_rest p hp

theorem addAllUMap_mem [DecidableEq κ] :
    ∀ (items : List (κ × ν)) (m : UMap κ ν),
      (∀ p ∈ items, findEntry m.entries p.1 = none ∨ p ∈ m.entries) →
      items.Pairwise (fun p q => p.1 ≠ q.1 ∨ p = q) →
      ∀ p ∈ items, p ∈ (addAllUMap m items).entries := by
  intro items
  induction items with
  | nil => intro m _ _ p hp; simp at hp
  | cons i rest ih =>
    intro m hcomp hpw p hp
    rw [List.pairwise_cons] at hpw
    obtain ⟨hi_rest, hpw_rest⟩ := hpw
    have hmem_i : i ∈ (addUMapPair m i).entries := by
      rcases hcomp i (List.mem_cons.mpr (Or.inl rfl)) with hnone | hmem
      · exact self_mem_insertEntryU (findEntry_eq_none_iff.mp hnone)
      · exact mem_of_mem_insertEntryU hmem
    have hcomp' : ∀ q ∈ rest,
        findEntry (addUMapPair m i).entries q.1 = none ∨
          q ∈ (addUMapPair m i).entries := by
      intro q hq
      rcases hcomp q (List.mem_cons.mpr (Or.inr hq)) with hnone | hmem
      · rcases hi_rest q hq with hne | rfl
        · left
          rw [findEntry_eq_none_iff]
          intro e he
          rcases mem_insertEntryU he with rfl | he
          · exact hne
          · exact findEntry_eq_none_iff.mp hnone e he
        · exact Or.inr hmem_i
      · exact Or.inr (mem_of_mem_insertEntryU hmem)
    rw [show addAllUMap m (i :: rest) =
      addAllLoop addUMapPair (addUMapPair m i) rest from rfl]
    rcases List.mem_cons.mp hp with rfl | hp
    · exact addAllLoop_mono addUMapPair (fun m' => p ∈ m'.entries)
        (fun m' b h => mem_of_mem_insertEntryU h) rest (addUMapPair m p)
        hmem_i
    · exact ih (addUMapPair m i) hcomp' hpw_rest p hp

theorem mem_inFirstButNotInSecondLoop [DecidableEq α] (inSecond : α → Bool) :
    ∀ (first : List α) (acc : USet α) (x : α),
      x ∈ (inFirstButNotInSecondLoop inSecond acc first).elems ↔
        x ∈ acc.elems ∨ (x ∈ first ∧ inSecond x = false) := by
  intro first
  induction first with
  | nil => intro acc x; simp [inFirstButNotInSecondLoop]
  | cons i rest ih =>
    intro acc x
    rw [show inFirstButNotInSecondLoop inSecond acc (i :: rest) =
      inFirstButNotInSecondLoop inSecond
        (if inSecond i then acc else addUSet acc i) rest from rfl]
    rw [ih]
    by_cases h : inSecond i = true
    · rw [if_pos h]
      constructor
      · rintro (hx | hx)
        · exact Or.inl hx
        · exact Or.inr ⟨List.mem_cons.mpr (Or.inr hx.1), hx.2⟩
      · rintro (hx | ⟨hmem, hfalse⟩)
        · exact Or.inl hx
        · rcases List.mem_cons.mp hmem with rfl | hmem
          · rw [h] at hfalse; cases hfalse
          · exact Or.inr ⟨hmem, hfalse⟩
    · rw [if_neg h]
      have hfi : inSecond i = false := by
        simpa using h
      constructor
      · rintro (hx | hx)
        · rcases mem_insertUnique.mp hx with rfl | hx
          · exact Or.inr ⟨List.mem_cons.mpr (Or.inl rfl), hfi⟩
          · exact Or.inl hx
        · exact Or.inr ⟨List.mem_cons.mpr (Or.inr hx.1), hx.2⟩
      · rintro (hx | ⟨hmem, hfalse⟩)
        · exact Or.inl (mem_insertUnique.mpr (Or.inr hx))
        · rcases List.mem_cons.mp hmem with rfl | hmem
          · exact Or.inl (mem_insertUnique.mpr (Or.inl rfl))
          · exact Or.inr ⟨hmem, hfalse⟩

theorem mem_inFirstButNotInSecond [DecidableEq α] (inSecond : α → Bool)
    (first : List α) (x : α) :
    x ∈ (inFirstButNotInSecond first inSecond).elems ↔
      x ∈ first ∧ inSecond x = false := by
  rw [inFirstButNotInSecond, mem_inFirstButNotInSecondLoop]
  simp

end BatchLemmas

section ProjectionEquations

variable {α κ ν : Type}

theorem removeOSet_elems [LinearOrder α] (s : OSet α) (x : α) :
    (removeOSet s x).elems = eraseElem s.elems x := rfl

theorem addOSet_elems [LinearOrder α] (s : OSet α) (x : α) :
    (addOSet s x).elems = insertSorted s.elems x := rfl

theorem removeUSet_elems [DecidableEq α] (s : USet α) (x : α) :
    (removeUSet s x).elems = eraseElem s.elems x := rfl

theorem addUSet_elems [DecidableEq α] (s : USet α) (x : α) :
    (addUSet s x).elems = insertUnique s.elems x := rfl

theorem removeOMap_entries [LinearOrder κ] (m : OMap κ ν) (k : κ) :
    (removeOMap m k).entries = eraseEntry m.entries k := rfl

theorem addOMapPair_entries [LinearOrder κ] (m : OMap κ ν) (p : κ × ν) :
    (addOMapPair m p).entries = insertEntry m.entries p := rfl

theorem setOMap_entries [LinearOrder κ] (m : OMap κ ν) (k : κ) (v : ν) :
    (setOMap m k v).entries = assignEntry m.entries k v := rfl

theorem removeUMap_entries [DecidableEq κ] (m : UMap κ ν) (k : κ) :
    (removeUMap m k).entries = eraseEntry m.entries k := rfl

theorem addUMapPair_entries [DecidableEq κ] (m : UMap κ ν) (p : κ × ν) :
    (addUMapPair m p).entries = insertEntryU m.entries p := rfl

theorem setUMap_entries [DecidableEq κ] (m : UMap κ ν) (k : κ) (v : ν) :
    (setUMap m k v).entries = assignEntryU m.entries k v := rfl

end ProjectionEquations

/-- C1: for every container shape (sequential, ordered set, hashed set,
ordered map, hashed map) and every item (or key), `contains` returns true
if and only if `count` is positive. -/
theorem c1_contains_iff_count_pos :
    (∀ (α : Type) [DecidableEq α] (l : List α) (x : α),
        containsSeq l x = true ↔ 0 < countSeq l x) ∧
    (∀ (α : Type) [LinearOrder α] (s : OSet α) (x : α),
        containsOSet s x = true ↔ 0 < countOSet s x) ∧
    (∀ (α : Type) [DecidableEq α] (s : USet α) (x : α),
        containsUSet s x = true ↔ 0 < countUSet s x) ∧
    (∀ (κ ν : Type) [LinearOrder κ] (m : OMap κ ν) (k : κ),
        containsOMap m k = true ↔ 0 < countOMap m k) ∧
    (∀ (κ ν : Type) [DecidableEq κ] (m : UMap κ ν) (k : κ),
        containsUMap m k = true ↔ 0 < countUMap m k) := by
  refine ⟨?_, ?_, ?_, ?_, ?_⟩
  · intro α _ l x
    rw [containsSeq_iff_mem, countSeq_eq_count]
    exact List.count_pos_iff.symm
  · intro α _ s x
    rw [containsOSet_iff_mem]
    rw [show countOSet s x = (s.elems.count x : Nat) from
      countSeq_eq_count s.elems x]
    exact List.count_pos_iff.symm
  · intro α _ s x
    rw [containsUSet_iff_mem]
    rw [show countUSet s x = (s.elems.count x : Nat) from
      countSeq_eq_count s.elems x]
    exact List.count_pos_iff.symm
  · intro κ ν _ m k
    exact (containsOMap_iff m k).trans countEntries_pos_iff.symm
  · intro κ ν _ m k
    exact (containsUMap_iff m k).trans countEntries_pos_iff.symm

/-- C1 witness: the equivalence evaluated at the sequential container
`[1, 3, 3]` and the item `3`. -/
theorem c1_contains_iff_count_pos_witness :
    containsSeq [1, 3, 3] 3 = true ↔ 0 < countSeq [1, 3, 3] 3 :=
  c1_contains_iff_count_pos.1 ℕ [1, 3, 3] 3

/-- C2: for every container shape, `contains` is false immediately after
`remove` of the same item; the sequential `remove` erases every occurrence
(count drops to zero); and removing an absent item leaves the container
unchanged. -/
theorem c2_remove_then_not_contains :
    (∀ (α : Type) [DecidableEq α] (l : List α) (x : α),
        containsSeq (removeSeq l x) x = false ∧
        countSeq (removeSeq l x) x = 0 ∧
        (containsSeq l x = false → removeSeq l x = l)) ∧
    (∀ (α : Type) [LinearOrder α] (s : OSet α) (x : α),
        containsOSet (removeOSet s x) x = false ∧
        (containsOSet s x = false → removeOSet s x = s)) ∧
    (∀ (α : Type) [DecidableEq α] (s : USet α) (x : α),
        containsUSet (removeUSet s x) x = false ∧
        (containsUSet s x = false → removeUSet s x = s)) ∧
    (∀ (κ ν : Type) [LinearOrder κ] (m : OMap κ ν) (k : κ),
        containsOMap (removeOMap m k) k = false ∧
        (containsOMap m k = false → removeOMap m k = m)) ∧
    (∀ (κ ν : Type) [DecidableEq κ] (m : UMap κ ν) (k : κ),
        containsUMap (removeUMap m k) k = false ∧
        (containsUMap m k = false → removeUMap m k = m)) := by
  refine ⟨?_, ?_, ?_, ?_, ?_⟩
  · intro α _ l x
    refine ⟨Bool.eq_false_iff.mpr ?_, ?_, ?_⟩
    · intro h
      rw [containsSeq_iff_mem, mem_removeSeq] at h
      exact h.2 rfl
    · rw [countSeq_eq_count, List.count_eq_zero]
      rw [mem_removeSeq]
      rintro ⟨_, hne⟩
      exact hne rfl
    · intro h
      have hx : x ∉ l := fun hm =>
        absurd (containsSeq_iff_mem l x |>.mpr hm) (by simp [h])
      rw [removeSeq_eq_filter]
      exact eraseElem_of_not_mem hx
  · intro α _ s x
    constructor
    · refine Bool.eq_false_iff.mpr ?_
      intro h
      rw [containsOSet_iff_mem, removeOSet_elems, mem_eraseElem] at h
      exact h.2 rfl
    · intro h
      have hx : x ∉ s.elems := fun hm =>
        absurd (containsOSet_iff_mem s x |>.mpr hm) (by simp [h])
      exact oset_eq_of_elems
        ((removeOSet_elems s x).trans (eraseElem_of_not_mem hx))
  · intro α _ s x
    constructor
    · refine Bool.eq_false_iff.mpr ?_
      intro h
      rw [containsUSet_iff_mem, removeUSet_elems, mem_eraseElem] at h
      exact h.2 rfl
    · intro h
      have hx : x ∉ s.elems := fun hm =>
        absurd (containsUSet_iff_mem s x |>.mpr hm) (by simp [h])
      exact uset_eq_of_elems
        ((removeUSet_elems s x).trans (eraseElem_of_not_mem hx))
  · intro κ ν _ m k
    constructor
    · refine Bool.eq_false_iff.mpr ?_
      intro h
      rw [containsOMap_iff, removeOMap_entries] at h
      obtain ⟨e, he, hk⟩ := h
      exact (mem_eraseEntry.mp he).2 hk
    · intro h
      have hnone : findEntry m.entries k = none := by
        rcases hfe : findEntry m.entries k with _ | e
        · rfl
        · obtain ⟨he, hk⟩ := findEntry_eq_some hfe
          exact absurd (containsOMap_iff m k |>.mpr ⟨e, he, hk⟩)
            (by simp [h])
      exact omap_eq_of_entries
        ((removeOMap_entries m k).trans (eraseEntry_of_none hnone))
  · intro κ ν _ m k
    constructor
    · refine Bool.eq_false_iff.mpr ?_
      intro h
      rw [containsUMap_iff, removeUMap_entries] at h
      obtain ⟨e, he, hk⟩ := h
      exact (mem_eraseEntry.mp he).2 hk
    · intro h
      have hnone : findEntry m.entries k = none := by
        rcases hfe : findEntry m.entries k with _ | e
        · rfl
        · obtain ⟨he, hk⟩ := findEntry_eq_some hfe
          exact absurd (containsUMap_iff m k |>.mpr ⟨e, he, hk⟩)
            (by simp [h])
      exact umap_eq_of_entries
        ((removeUMap_entries m k).trans (eraseEntry_of_none hnone))

/-- C2 witness: on `[1, 3, 3]` removing `3` kills `contains` and `count`,
and removing the absent item `7` returns the container unchanged. -/
theorem c2_remove_then_not_contains_witness :
    containsSeq (removeSeq [1, 3, 3] 3) 3 = false ∧
      countSeq (removeSeq [1, 3, 3] 3) 3 = 0 ∧
      removeSeq [1, 3, 3] 7 = [1, 3, 3] :=
  ⟨(c2_remove_then_not_contains.1 ℕ [1, 3, 3] 3).1,
   (c2_remove_then_not_contains.1 ℕ [1, 3, 3] 3).2.1,
   (c2_remove_then_not_contains.1 ℕ [1, 3, 3] 7).2.2 (by decide)⟩

/-- C4: on both set shapes and both map shapes every count is 0 or 1 (the
structures' key-uniqueness invariant is maintained by every operation of
the embedding, so every reachable state satisfies it); on a sequential
container `count` is the literal number of occurrences. -/
theorem c4_count_zero_or_one :
    (∀ (α : Type) [LinearOrder α] (s : OSet α) (x : α),
        countOSet s x = 0 ∨ countOSet s x = 1) ∧
    (∀ (α : Type) [DecidableEq α] (s : USet α) (x : α),
        countUSet s x = 0 ∨ countUSet s x = 1) ∧
    (∀ (κ ν : Type) [LinearOrder κ] (m : OMap κ ν) (k : κ),
        countOMap m k = 0 ∨ countOMap m k = 1) ∧
    (∀ (κ ν : Type) [DecidableEq κ] (m : UMap κ ν) (k : κ),
        countUMap m k = 0 ∨ countUMap m k = 1) ∧
    (∀ (α : Type) [DecidableEq α] (l : List α) (x : α),
        countSeq l x = l.count x) := by
  refine ⟨?_, ?_, ?_, ?_, ?_⟩
  · intro α _ s x
    refine Nat.le_one_iff_eq_zero_or_eq_one.mp ?_
    rw [show countOSet s x = (s.elems.count x : Nat) from
      countSeq_eq_count s.elems x]
    exact List.nodup_iff_count_le_one.mp (OSet.nodup s) x
  · intro α _ s x
    refine Nat.le_one_iff_eq_zero_or_eq_one.mp ?_
    rw [show countUSet s x = (s.elems.count x : Nat) from
      countSeq_eq_count s.elems x]
    exact List.nodup_iff_count_le_one.mp s.inv x
  · intro κ ν _ m k
    exact Nat.le_one_iff_eq_zero_or_eq_one.mp
      (countEntries_le_one (m.inv.imp fun h => ne_of_lt h))
  · intro κ ν _ m k
    exact Nat.le_one_iff_eq_zero_or_eq_one.mp (countEntries_le_one m.inv)
  · intro α _ l x
    exact countSeq_eq_count l x

/-- C4 witness: evaluated at a concrete ordered set and a concrete
sequence. -/
theorem c4_count_zero_or_one_witness :
    (countOSet (⟨[1, 2, 3], by simp⟩ : OSet ℕ) 2 = 0 ∨
      countOSet (⟨[1, 2, 3], by simp⟩ : OSet ℕ) 2 = 1) ∧
    countSeq [1, 3, 3] 3 = [1, 3, 3].count 3 :=
  ⟨c4_count_zero_or_one.1 ℕ ⟨[1, 2, 3], by simp⟩ 2,
   c4_count_zero_or_one.2.2.2.2 ℕ [1, 3, 3] 3⟩

/-- C10: the sequential `remove` (erase-remove idiom) keeps, in their
original relative order, exactly the elements different from the removed
item: it equals a stable filter and is a sublist of the original
sequence. -/
theorem c10_removeSeq_stable_filter :
    ∀ (α : Type) [DecidableEq α] (l : List α) (x : α),
      removeSeq l x = l.filter (fun a => a ≠ x) ∧
        (removeSeq l x).Sublist l := by
  intro α _ l x
  refine ⟨removeSeq_eq_filter l x, ?_⟩
  rw [removeSeq_eq_filter]
  exact List.filter_sublist l

/-- C10 witness: removing `1` from `[1, 3, 1, 2]` leaves `[3, 2]` in
order. -/
theorem c10_removeSeq_stable_filter_witness :
    removeSeq [1, 3, 1, 2] 1 = [1, 3, 1, 2].filter (fun a => a ≠ 1) ∧
      (removeSeq [1, 3, 1, 2] 1).Sublist [1, 3, 1, 2] :=
  c10_removeSeq_stable_filter ℕ [1, 3, 1, 2] 1

/-- C6: on every container shape `containsAny` returns false exactly when
the batch is empty or none of its elements is contained; `containsAll` is
vacuously true on the empty batch and `containsAny` vacuously false. -/
theorem c6_containsAny_false_iff :
    (∀ (α : Type) [DecidableEq α] (l : List α) (items : List α),
        (containsAnySeq l items = false ↔
          (items = [] ∨ ∀ x ∈ items, containsSeq l x = false)) ∧
        containsAllSeq l [] = true ∧ containsAnySeq l [] = false) ∧
    (∀ (α : Type) [LinearOrder α] (s : OSet α) (items : List α),
        (containsAnyOSet s items = false ↔
          (items = [] ∨ ∀ x ∈ items, containsOSet s x = false)) ∧
        containsAllOSet s [] = true ∧ containsAnyOSet s [] = false) ∧
    (∀ (α : Type) [DecidableEq α] (s : USet α) (items : List α),
        (containsAnyUSet s items = false ↔
          (items = [] ∨ ∀ x ∈ items, containsUSet s x = false)) ∧
        containsAllUSet s [] = true ∧ containsAnyUSet s [] = false) ∧
    (∀ (κ ν : Type) [LinearOrder κ] (m : OMap κ ν) (items : List κ),
        (containsAnyOMap m items = false ↔
          (items = [] ∨ ∀ x ∈ items, containsOMap m x = false)) ∧
        containsAllOMap m ([] : List κ) = true ∧
        containsAnyOMap m ([] : List κ) = false) ∧
    (∀ (κ ν : Type) [DecidableEq κ] (m : UMap κ ν) (items : List κ),
        (containsAnyUMap m items = false ↔
          (items = [] ∨ ∀ x ∈ items, containsUMap m x = false)) ∧
        containsAllUMap m ([] : List κ) = true ∧
        containsAnyUMap m ([] : List κ) = false) := by
  have key : ∀ (β : Type) (p : β → Bool) (items : List β),
      containsAnyLoop p items = false ↔
        (items = [] ∨ ∀ x ∈ items, p x = false) := by
    intro β p items
    rw [containsAnyLoop_eq_false_iff]
    constructor
    · exact Or.inr
    · rintro (rfl | h)
      · intro i hi
        simp at hi
      · exact h
  exact ⟨fun α _ l items => ⟨key α (containsSeq l) items, rfl, rfl⟩,
    fun α _ s items => ⟨key α (containsOSet s) items, rfl, rfl⟩,
    fun α _ s items => ⟨key α (containsUSet s) items, rfl, rfl⟩,
    fun κ ν _ m items => ⟨key κ (containsOMap m) items, rfl, rfl⟩,
    fun κ ν _ m items => ⟨key κ (containsUMap m) items, rfl, rfl⟩⟩

/-- C6 witness: the equivalence evaluated on the sequence `[1, 2]` with
the batch `[3]`, together with both vacuous cases. -/
theorem c6_containsAny_false_iff_witness :
    (containsAnySeq [1, 2] [3] = false ↔
      ([3] = ([] : List ℕ) ∨ ∀ x ∈ [3], containsSeq [1, 2] x = false)) ∧
    containsAllSeq ([1, 2] : List ℕ) [] = true ∧
    containsAnySeq ([1, 2] : List ℕ) [] = false :=
  c6_containsAny_false_iff.1 ℕ [1, 2] [3]

/-- C7: `inFirstButNotInSecond` returns the hashed set of exactly those
elements of the first argument that the second does not contain, with
duplicates collapsed (the result is duplicate-free), and on the spec's two
concrete examples it yields the sets `{2, 3}` and `{1, 2}`. -/
theorem c7_inFirstButNotInSecond_spec :
    (∀ (α : Type) [DecidableEq α] (first : List α) (inSecond : α → Bool)
        (x : α),
        x ∈ (inFirstButNotInSecond first inSecond).elems ↔
          x ∈ first ∧ inSecond x = false) ∧
    (∀ (α : Type) [DecidableEq α] (first : List α) (inSecond : α → Bool),
        (inFirstButNotInSecond first inSecond).elems.Nodup) ∧
    (∀ x : ℕ,
        x ∈ (inFirstButNotInSecond [1, 2, 3]
          (containsSeq [1, 4, 5])).elems ↔ x = 2 ∨ x = 3) ∧
    (∀ x : ℕ,
        x ∈ (inFirstButNotInSecond [1, 2, 3]
          (containsSeq [3])).elems ↔ x = 1 ∨ x = 2) := by
  refine ⟨?_, ?_, ?_, ?_⟩
  · intro α _ first inSecond x
    exact mem_inFirstButNotInSecond inSecond first x
  · intro α _ first inSecond
    exact (inFirstButNotInSecond first inSecond).inv
  · intro x
    rw [show (inFirstButNotInSecond [1, 2, 3]
      (containsSeq [1, 4, 5])).elems = [2, 3] by decide]
    simp
  · intro x
    rw [show (inFirstButNotInSecond [1, 2, 3]
      (containsSeq [3])).elems = [1, 2] by decide]
    simp

/-- C7 witness: the membership characterisation evaluated on the first
concrete example at the element `2`. -/
theorem c7_inFirstButNotInSecond_spec_witness :
    2 ∈ (inFirstButNotInSecond [1, 2, 3]
      (containsSeq [1, 4, 5])).elems ↔
      2 ∈ [1, 2, 3] ∧ containsSeq [1, 4, 5] 2 = false :=
  c7_inFirstButNotInSecond_spec.1 ℕ [1, 2, 3] (containsSeq [1, 4, 5]) 2

/-- C3 counterexample: on the ordered map `{1 ↦ 2}`, the single-argument
`add` with the key-value item `(1, 5)` goes through the map's native
`insert`, which keeps the existing value, so `contains` with the very item
that was just added (the pair, looked up by the generic linear `find`) is
false immediately after `add` — refuting "for every container shape C and
item x, after add(C, x) the call contains(C, x) returns true". -/
theorem c3_counterexample :
    containsOMapEntry
      (addOMapPair (⟨[(1, 2)], by simp⟩ : OMap ℕ ℕ) (1, 5)) (1, 5) =
      false := by
  decide

/-- C3 (amended): `contains` is true immediately after `add` of the same
item on sequential containers (which insert at the end) and on both set
shapes; on map shapes it is true after the single-argument `add(M, p)`
provided p's key was absent or p itself was already stored (that `add`
never overwrites); and the two-argument overload `add(M, k, v)` always
makes `contains(M, k)` true with lookup of `k` yielding `v`, overwriting
any previous value. -/
theorem c3_add_then_contains_amended :
    (∀ (α : Type) [DecidableEq α] (l : List α) (x : α),
        containsSeq (addSeq l x) x = true ∧ addSeq l x = l ++ [x]) ∧
    (∀ (α : Type) [LinearOrder α] (s : OSet α) (x : α),
        containsOSet (addOSet s x) x = true) ∧
    (∀ (α : Type) [DecidableEq α] (s : USet α) (x : α),
        containsUSet (addUSet s x) x = true) ∧
    (∀ (κ ν : Type) [LinearOrder κ] [DecidableEq ν] (m : OMap κ ν)
        (p : κ × ν),
        findOMap m p.1 = none ∨ p ∈ m.entries →
          containsOMapEntry (addOMapPair m p) p = true) ∧
    (∀ (κ ν : Type) [DecidableEq κ] [DecidableEq ν] (m : UMap κ ν)
        (p : κ × ν),
        findUMap m p.1 = none ∨ p ∈ m.entries →
          containsUMapEntry (addUMapPair m p) p = true) ∧
    (∀ (κ ν : Type) [LinearOrder κ] (m : OMap κ ν) (k : κ) (v : ν),
        containsOMap (setOMap m k v) k = true ∧
          lookupOMap (setOMap m k v) k = some v) ∧
    (∀ (κ ν : Type) [DecidableEq κ] (m : UMap κ ν) (k : κ) (v : ν),
        containsUMap (setUMap m k v) k = true ∧
          lookupUMap (setUMap m k v) k = some v) := by
  refine ⟨?_, ?_, ?_, ?_, ?_, ?_, ?_⟩
  · intro α _ l x
    refine ⟨?_, rfl⟩
    rw [containsSeq_iff_mem]
    exact List.mem_append.mpr (Or.inr (List.mem_singleton.mpr rfl))
  · intro α _ s x
    rw [containsOSet_iff_mem, addOSet_elems]
    exact self_mem_insertSorted s.elems x
  · intro α _ s x
    rw [containsUSet_iff_mem, addUSet_elems]
    exact mem_insertUnique.mpr (Or.inl rfl)
  · intro κ ν _ _ m p h
    rw [containsOMapEntry_iff_mem, addOMapPair_entries]
    rcases h with hnone | hmem
    · exact self_mem_insertEntry (findEntry_eq_none_iff.mp hnone)
    · exact mem_of_mem_insertEntry hmem
  · intro κ ν _ _ m p h
    rw [containsUMapEntry_iff_mem, addUMapPair_entries]
    rcases h with hnone | hmem
    · exact self_mem_insertEntryU (findEntry_eq_none_iff.mp hnone)
    · exact mem_of_mem_insertEntryU hmem
  · intro κ ν _ m k v
    constructor
    · rw [containsOMap_iff, setOMap_entries]
      exact ⟨(k, v), (findEntry_eq_some (findEntry_assignEntry _ k v)).1,
        rfl⟩
    · rw [lookupOMap, findOMap, setOMap_entries, findEntry_assignEntry]
      rfl
  · intro κ ν _ m k v
    constructor
    · rw [containsUMap_iff, setUMap_entries]
      exact ⟨(k, v), (findEntry_eq_some (findEntry_assignEntryU _ k v)).1,
        rfl⟩
    · rw [lookupUMap, findUMap, setUMap_entries, findEntry_assignEntryU]
      rfl

/-- C3 witness: the map conjunct evaluated on the empty ordered map with
the pair `(1, 5)` (key absent, so the proviso holds), and the two-argument
overload on `{1 ↦ 2, 2 ↦ 3}` with key `3`, value `4`. -/
theorem c3_add_then_contains_amended_witness :
    containsOMapEntry
      (addOMapPair (⟨[], List.Pairwise.nil⟩ : OMap ℕ ℕ) (1, 5)) (1, 5) =
      true ∧
    containsOMap
      (setOMap (⟨[(1, 2), (2, 3)], by simp⟩ : OMap ℕ ℕ) 3 4) 3 = true ∧
    lookupOMap
      (setOMap (⟨[(1, 2), (2, 3)], by simp⟩ : OMap ℕ ℕ) 3 4) 3 = some 4 :=
  ⟨c3_add_then_contains_amended.2.2.2.1 ℕ ℕ ⟨[], List.Pairwise.nil⟩
      (1, 5) (Or.inl rfl),
   (c3_add_then_contains_amended.2.2.2.2.2.1 ℕ ℕ
      ⟨[(1, 2), (2, 3)], by simp⟩ 3 4).1,
   (c3_add_then_contains_amended.2.2.2.2.2.1 ℕ ℕ
      ⟨[(1, 2), (2, 3)], by simp⟩ 3 4).2⟩

/-- C9: the single-argument `add` on a map shape whose key is already
present leaves the whole map unchanged (the stored value is kept; only the
two-argument overload overwrites). -/
theorem c9_pair_add_keeps_existing_value :
    (∀ (κ ν : Type) [LinearOrder κ] (m : OMap κ ν) (p q : κ × ν),
        q ∈ m.entries → q.1 = p.1 → addOMapPair m p = m) ∧
    (∀ (κ ν : Type) [DecidableEq κ] (m : UMap κ ν) (p q : κ × ν),
        q ∈ m.entries → q.1 = p.1 → addUMapPair m p = m) := by
  constructor
  · intro κ ν _ m p q hq hk
    exact omap_eq_of_entries ((addOMapPair_entries m p).trans
      (insertEntry_of_mem_key m.inv hq hk))
  · intro κ ν _ m p q hq hk
    exact umap_eq_of_entries ((addUMapPair_entries m p).trans
      (insertEntryU_of_isSome (findEntry_isSome_iff.mpr ⟨q, hq, hk⟩)))

/-- C9 witness: on the ordered map `{1 ↦ 2}`, adding the pair `(1, 5)`
through the single-argument `add` returns the map unchanged. -/
theorem c9_pair_add_keeps_existing_value_witness :
    addOMapPair (⟨[(1, 2)], by simp⟩ : OMap ℕ ℕ) (1, 5) =
      (⟨[(1, 2)], by simp⟩ : OMap ℕ ℕ) :=
  c9_pair_add_keeps_existing_value.1 ℕ ℕ ⟨[(1, 2)], by simp⟩ (1, 5)
    (1, 2) (by decide) rfl

/-- C5 counterexample: with the ordered map `{1 ↦ 2}` as destination and
the one-entry batch `[(1, 5)]` (e.g. another map), `addAll` forwards to
the non-overwriting single-item `add`, so afterwards `containsAll` — whose
per-item test is the generic pair `find` — is false, refuting "immediately
afterwards containsAll(C, items) returns true, for every container
shape". -/
theorem c5_counterexample :
    containsAllOMapEntries
      (addAllOMap (⟨[(1, 2)], by simp⟩ : OMap ℕ ℕ) [(1, 5)])
      [(1, 5)] = false := by
  decide

/-- C5 (amended): `addAll` applies `add` once per element of the batch in
the batch's iteration order (it is the left fold of `add`); immediately
afterwards `containsAll` is true on sequential and on both set-shaped
destinations; on map-shaped destinations (whose single-item `add` never
overwrites) it is true provided no batch entry carries a key already bound
— in the destination or by a different earlier batch entry — to a
different value. -/
theorem c5_addAll_then_containsAll_amended :
    (∀ (σ β : Type) (addFn : σ → β → σ) (c : σ) (items : List β),
        addAllLoop addFn c items = items.foldl addFn c) ∧
    (∀ (α : Type) [DecidableEq α] (l : List α) (items : List α),
        containsAllSeq (addAllSeq l items) items = true) ∧
    (∀ (α : Type) [LinearOrder α] (s : OSet α) (items : List α),
        containsAllOSet (addAllOSet s items) items = true) ∧
    (∀ (α : Type) [DecidableEq α] (s : USet α) (items : List α),
        containsAllUSet (addAllUSet s items) items = true) ∧
    (∀ (κ ν : Type) [LinearOrder κ] [DecidableEq ν] (m : OMap κ ν)
        (items : List (κ × ν)),
        (∀ p ∈ items, findEntry m.entries p.1 = none ∨ p ∈ m.entries) →
        items.Pairwise (fun p q => p.1 ≠ q.1 ∨ p = q) →
        containsAllOMapEntries (addAllOMap m items) items = true) ∧
    (∀ (κ ν : Type) [DecidableEq κ] [DecidableEq ν] (m : UMap κ ν)
        (items : List (κ × ν)),
        (∀ p ∈ items, findEntry m.entries p.1 = none ∨ p ∈ m.entries) →
        items.Pairwise (fun p q => p.1 ≠ q.1 ∨ p = q) →
        containsAllUMapEntries (addAllUMap m items) items = true) := by
  refine ⟨fun σ β addFn c items => addAllLoop_eq_foldl addFn items c,
    ?_, ?_, ?_, ?_, ?_⟩
  · intro α _ l items
    rw [containsAllSeq, containsAllLoop_iff]
    intro i hi
    rw [containsSeq_iff_mem]
    exact addAllLoop_adds addSeq (fun c b => b ∈ c)
      (fun c b x hx => List.mem_append.mpr (Or.inl hx))
      (fun c b => List.mem_append.mpr (Or.inr (List.mem_singleton.mpr
        rfl)))
      items l i hi
  · intro α _ s items
    rw [containsAllOSet, containsAllLoop_iff]
    intro i hi
    rw [containsOSet_iff_mem]
    exact addAllLoop_adds addOSet (fun c b => b ∈ c.elems)
      (fun c b x hx => mem_insertSorted.mpr (Or.inr hx))
      (fun c b => self_mem_insertSorted c.elems b)
      items s i hi
  · intro α _ s items
    rw [containsAllUSet, containsAllLoop_iff]
    intro i hi
    rw [containsUSet_iff_mem]
    exact addAllLoop_adds addUSet (fun c b => b ∈ c.elems)
      (fun c b x hx => mem_insertUnique.mpr (Or.inr hx))
      (fun c b => mem_insertUnique.mpr (Or.inl rfl))
      items s i hi
  · intro κ ν _ _ m items hcomp hpw
    rw [containsAllOMapEntries, containsAllLoop_iff]
    intro i hi
    rw [containsOMapEntry_iff_mem]
    exact addAllOMap_mem items m hcomp hpw i hi
  · intro κ ν _ _ m items hcomp hpw
    rw [containsAllUMapEntries, containsAllLoop_iff]
    intro i hi
    rw [containsUMapEntry_iff_mem]
    exact addAllUMap_mem items m hcomp hpw i hi

/-- C5 witness: the sequential conjunct on `[1]` with batch `[2, 3]`, and
the ordered-map conjunct on the empty map with the fresh-keyed batch
`[(1, 5)]`. -/
theorem c5_addAll_then_containsAll_amended_witness :
    containsAllSeq (addAllSeq [1] [2, 3]) [2, 3] = true ∧
    containsAllOMapEntries
      (addAllOMap (⟨[], List.Pairwise.nil⟩ : OMap ℕ ℕ) [(1, 5)])
      [(1, 5)] = true :=
  ⟨c5_addAll_then_containsAll_amended.2.1 ℕ [1] [2, 3],
   c5_addAll_then_containsAll_amended.2.2.2.2.1 ℕ ℕ
     ⟨[], List.Pairwise.nil⟩ [(1, 5)] (fun p hp => Or.inl rfl) (by simp)⟩

end STLWrappers
